import Mathlib

/-!
Verification of the staleness-detection core of the `active-descriptions`
plugin (`src/plugins/active-descriptions/src/main.rs`).

The Rust program decides, for each candidate revision, whether its
description has gone stale relative to its content.  We embed the core
shallowly: the revision backend (commit lookup, tree-diff streaming,
predecessor walking) is modelled as explicit data carried by a `Repo`
structure, and each Rust function becomes a Lean function with the same
control flow (`?` becomes an explicit `match` on `Except`).
-/

namespace ActiveDescriptions

/-- Paths inside the repository (`RepoPathBuf` in the source).  Change ids and
commit ids are also strings. -/
abbrev Path := String

/-- Error kinds of the backend, following the spec's taxonomy (`NotFound`,
`BackendReadError`, `MalformedInput`); the Rust code carries them as `anyhow`
errors, only their fatality matters here. -/
inductive Err where
  | notFound
  | backendRead
  | malformed
deriving DecidableEq, Repr

/-- One fingerprint entry: the `Diff<MergedTreeValue>` pair `(before, after)`
for a path.  Tree values are modelled as opaque content ids (`Option String`,
`none` meaning the path is absent on that side). -/
structure DiffVal where
  before : Option String
  after : Option String
deriving DecidableEq, Repr

/-- A diff fingerprint: the `BTreeMap<RepoPathBuf, Diff<MergedTreeValue>>` of
the source, represented as its sorted association list (key-sorted, unique
keys — the invariant `BTreeMap` maintains and its iteration order). -/
abbrev Fp := List (Path × DiffVal)

instance {ε α : Type} [DecidableEq ε] [DecidableEq α] : DecidableEq (Except ε α) := fun a b =>
  match a, b with
  | .ok x, .ok y => decidable_of_iff (x = y) (by simp)
  | .error x, .error y => decidable_of_iff (x = y) (by simp)
  | .ok _, .error _ => isFalse (by simp)
  | .error _, .ok _ => isFalse (by simp)

/-- A commit as the algorithm observes it: change id (display form),
description, parents and tree reference, and the backend's tree-diff stream
for `parent_tree.diff_stream(&tree)` — a finite sequence of entries whose
`values` field may individually fail with a backend read error. -/
structure Commit where
  changeId : String
  description : String
  parents : List String
  treeId : String
  diffStream : List (Path × Except Err DiffVal)
deriving DecidableEq, Repr

/-- Placeholder commit used only for out-of-range `getD` indexing (the Rust
indexing `entries[i]` is always in range where the algorithm uses it). -/
def dfltCommit : Commit :=
  { changeId := "", description := "", parents := [], treeId := "", diffStream := [] }

/-- The revision backend adapter: commit lookup by id, and the
`walk_predecessors` stream for a commit id (newest first, each element
possibly a walk error). -/
structure Repo where
  getCommit : String → Except Err Commit
  predecessors : String → List (Except Err Commit)

/-- `StalenessInfo` from the source. -/
structure StalenessInfo where
  change_id_short : String
  changed_files : List Path
deriving DecidableEq, Repr

/-- `MAX_EVOLOG_ENTRIES` from the source. -/
def MAX_EVOLOG_ENTRIES : Nat := 200

/-- Lexicographic strict order on character sequences: the `Ord` instance of
`RepoPathBuf` (byte-wise lexicographic comparison of paths). -/
def lexLt : List Char → List Char → Bool
  | [], [] => false
  | [], _ :: _ => true
  | _ :: _, [] => false
  | a :: as, b :: bs => if a < b then true else if b < a then false else lexLt as bs

/-- Strict lexicographic order on paths (`RepoPathBuf: Ord`, `<`). -/
def pathLt (p q : Path) : Bool := lexLt p.data q.data

/-- Reflexive lexicographic order on paths (`RepoPathBuf: Ord`, `<=`), the
order `Vec::sort` sorts by. -/
def pathLe (p q : Path) : Prop := pathLt p q = true ∨ p = q

instance : DecidableRel pathLe := fun p q => by unfold pathLe; infer_instance

/-- `BTreeMap::insert`: insert keeping keys sorted and unique, replacing the
value on an existing key. -/
def fpInsert (fp : Fp) (p : Path) (v : DiffVal) : Fp :=
  match fp with
  | [] => [(p, v)]
  | (q, w) :: rest =>
    if pathLt p q then (p, v) :: (q, w) :: rest
    else if p = q then (p, v) :: rest
    else (q, w) :: fpInsert rest p v

/-- `BTreeMap::get`. -/
def fpGet (fp : Fp) (p : Path) : Option DiffVal :=
  match fp with
  | [] => none
  | (q, w) :: rest => if p = q then some w else fpGet rest p

/-- The drain loop of `commit_diff_fingerprint`: walk the diff stream in
order, propagating the first error (`let diff = entry.values?`), otherwise
inserting into the map. -/
def commit_diff_fingerprint_go : List (Path × Except Err DiffVal) → Fp → Except Err Fp
  | [], fp => .ok fp
  | (_, .error e) :: _, _ => .error e
  | (p, .ok v) :: rest, fp => commit_diff_fingerprint_go rest (fpInsert fp p v)

/-- `commit_diff_fingerprint`: materialize the commit's diff-from-parent
stream into a sorted map, failing on the first backend read error. -/
def commit_diff_fingerprint (c : Commit) : Except Err Fp :=
  commit_diff_fingerprint_go c.diffStream []

/-- `diff_fingerprint_changes`: paths present in `current` whose entry is
absent or different in `described`, then paths present in `described` but
absent from `current`, then `changed.sort()` (stable). -/
def diff_fingerprint_changes (described current : Fp) : List Path :=
  List.insertionSort pathLe
    ((current.filter fun pc => decide (fpGet described pc.1 ≠ some pc.2)).map Prod.fst
      ++ (described.map Prod.fst).filter fun p => !(fpGet current p).isSome)

/-- The evolog collection loop of `check_staleness`: push each walk result
(propagating walk errors), breaking once `MAX_EVOLOG_ENTRIES` entries are
collected. -/
def collectEntries : List (Except Err Commit) → List Commit → Except Err (List Commit)
  | [], acc => .ok acc
  | .error e :: _, _ => .error e
  | .ok c :: rest, acc =>
    let acc' := acc ++ [c]
    if MAX_EVOLOG_ENTRIES ≤ acc'.length then .ok acc'
    else collectEntries rest acc'

/-- Lines 225–235 of the source: collect the predecessor walk (newest first)
and reverse into chronological order. -/
def inspectedChain (repo : Repo) (commitId : String) : Except Err (List Commit) :=
  (collectEntries (repo.predecessors commitId) []).map List.reverse

/-- The descending index loop of `check_staleness` (`for i in (1..len).rev()`):
starting at index `i`, return the entry at the first index (scanning down
to 1) whose description differs from its predecessor's. -/
def findLastDescribedGo (entries : List Commit) : Nat → Option Commit
  | 0 => none
  | i + 1 =>
    if (entries.getD (i + 1) dfltCommit).description
        ≠ (entries.getD i dfltCommit).description then
      some (entries.getD (i + 1) dfltCommit)
    else
      findLastDescribedGo entries i

/-- The `last_described_commit` computation plus its `unwrap_or(&entries[0])`
fallback. -/
def find_last_described (entries : List Commit) : Commit :=
  (findLastDescribedGo entries (entries.length - 1)).getD (entries.headD dfltCommit)

/-- `check_staleness`, with `?` rendered as explicit `match`.  Rust's byte
slice `full_change_id[..len.min(12)]` is `String.take 12` (change ids are
ASCII). -/
def check_staleness (repo : Repo) (commitId : String) : Except Err (Option StalenessInfo) :=
  match repo.getCommit commitId with
  | .error e => .error e
  | .ok commit =>
    let change_id_short := commit.changeId.take 12
    if commit.description = "" then
      match commit_diff_fingerprint commit with
      | .error e => .error e
      | .ok current_diff =>
        .ok (some { change_id_short, changed_files := current_diff.map Prod.fst })
    else
      match inspectedChain repo commitId with
      | .error e => .error e
      | .ok entries =>
        if entries.length < 2 then .ok none
        else
          match commit_diff_fingerprint (find_last_described entries) with
          | .error e => .error e
          | .ok described_diff =>
            match commit_diff_fingerprint commit with
            | .error e => .error e
            | .ok current_diff =>
              if described_diff = current_diff then .ok none
              else
                .ok (some { change_id_short,
                            changed_files := diff_fingerprint_changes described_diff current_diff })

/-- `CommitId::try_from_hex`: succeeds exactly on even-length hex strings. -/
def parseCommitId (s : String) : Except Err String :=
  if s.length % 2 = 0
      && s.toList.all (fun c =>
        c.isDigit || ('a' ≤ c && c ≤ 'f') || ('A' ≤ c && c ≤ 'F')) then
    .ok s
  else .error .malformed

/-- The candidate loop of `run` (lines 71–78): parse each candidate id and
check it, `?` propagating any failure, pushing each `Some` verdict. -/
def run_check_loop (repo : Repo) : List String → Except Err (List StalenessInfo)
  | [] => .ok []
  | hex :: rest =>
    match parseCommitId hex with
    | .error e => .error e
    | .ok commit_id =>
      match check_staleness repo commit_id with
      | .error e => .error e
      | .ok info? =>
        match run_check_loop repo rest with
        | .error e => .error e
        | .ok tail =>
          .ok (match info? with
               | some info => info :: tail
               | none => tail)

/-- The `BTreeMap` representation invariant: strictly increasing keys. -/
def SortedKeys (fp : Fp) : Prop :=
  List.Pairwise (fun a b : Path × DiffVal => pathLt a.1 b.1 = true) fp

instance : DecidablePred SortedKeys := fun fp => by unfold SortedKeys; infer_instance

/-! ### Order-theoretic facts about the path order -/

theorem lexLt_asymm : ∀ {a b : List Char}, lexLt a b = true → lexLt b a = false
  | [], [], h => by simp [lexLt] at h
  | [], _ :: _, _ => by simp [lexLt]
  | _ :: _, [], h => by simp [lexLt] at h
  | a :: as, b :: bs, h => by
    simp only [lexLt] at h ⊢
    rcases lt_trichotomy a b with hab | hab | hab
    · simp [hab, not_lt.mpr hab.le, lt_asymm hab]
    · subst hab
      simp only [lt_irrefl, if_false] at h ⊢
      exact lexLt_asymm h
    · simp [hab, not_lt.mpr hab.le, lt_asymm hab] at h

theorem lexLt_conn :
    ∀ {a b : List Char}, lexLt a b = false → lexLt b a = false → a = b
  | [], [], _, _ => rfl
  | [], _ :: _, h, _ => by simp [lexLt] at h
  | _ :: _, [], _, h => by simp [lexLt] at h
  | a :: as, b :: bs, h₁, h₂ => by
    simp only [lexLt] at h₁ h₂
    rcases lt_trichotomy a b with hab | hab | hab
    · simp [hab] at h₁
    · subst hab
      simp only [lt_irrefl, if_false] at h₁ h₂
      exact congrArg (a :: ·) (lexLt_conn h₁ h₂)
    · simp [hab] at h₂

theorem lexLt_trans :
    ∀ {a b c : List Char}, lexLt a b = true → lexLt b c = true → lexLt a c = true
  | [], [], _, h, _ => by simp [lexLt] at h
  | [], _ :: _, [], _, h => by simp [lexLt] at h
  | [], _ :: _, _ :: _, _, _ => by simp [lexLt]
  | _ :: _, [], _, h, _ => by simp [lexLt] at h
  | _ :: _, _ :: _, [], _, h => by simp [lexLt] at h
  | a :: as, b :: bs, c :: cs, h₁, h₂ => by
    simp only [lexLt] at h₁ h₂ ⊢
    rcases lt_trichotomy a b with hab | hab | hab
    · rcases lt_trichotomy b c with hbc | hbc | hbc
      · simp [lt_trans hab hbc]
      · subst hbc; simp [hab]
      · simp [hbc, not_lt.mpr hbc.le, lt_asymm hbc] at h₂
    · subst hab
      simp only [lt_irrefl, if_false] at h₁
      rcases lt_trichotomy a c with hac | hac | hac
      · simp [hac]
      · subst hac
        simp only [lt_irrefl, if_false] at h₂ ⊢
        exact lexLt_trans h₁ h₂
      · simp [hac, not_lt.mpr hac.le, lt_asymm hac] at h₂
    · simp [hab, not_lt.mpr hab.le, lt_asymm hab] at h₁

theorem pathLt_asymm {p q : Path} (h : pathLt p q = true) : pathLt q p = false :=
  lexLt_asymm h

theorem pathLt_conn {p q : Path}
    (h₁ : pathLt p q = false) (h₂ : pathLt q p = false) : p = q := by
  cases p with
  | mk dp =>
    cases q with
    | mk dq =>
      have : dp = dq := lexLt_conn h₁ h₂
      rw [this]

theorem pathLt_trans {p q r : Path}
    (h₁ : pathLt p q = true) (h₂ : pathLt q r = true) : pathLt p r = true :=
  lexLt_trans h₁ h₂

theorem pathLt_irrefl (p : Path) : pathLt p p = false := by
  cases h : pathLt p p with
  | false => rfl
  | true => have h₂ := pathLt_asymm h; rw [h] at h₂; exact h₂

theorem pathLt_ne {p q : Path} (h : pathLt p q = true) : p ≠ q := by
  intro he; subst he; rw [pathLt_irrefl] at h; exact Bool.false_ne_true h

instance : IsTrans Path pathLe where
  trans := by
    rintro a b c (h₁ | rfl) (h₂ | rfl)
    · exact Or.inl (pathLt_trans h₁ h₂)
    · exact Or.inl h₁
    · exact Or.inl h₂
    · exact Or.inr rfl

instance : IsTotal Path pathLe := by
  constructor
  intro a b
  cases h₁ : pathLt a b with
  | true => exact Or.inl (Or.inl h₁)
  | false =>
    cases h₂ : pathLt b a with
    | true => exact Or.inr (Or.inl h₂)
    | false => exact Or.inl (Or.inr (pathLt_conn h₁ h₂))

instance : IsAntisymm Path pathLe where
  antisymm := by
    intro a b h₁ h₂
    rcases h₁ with h₁ | h₁
    · rcases h₂ with h₂ | h₂
      · have h₃ := pathLt_asymm h₁
        rw [h₃] at h₂
        exact absurd h₂ Bool.false_ne_true
      · exact h₂.symm
    · exact h₁

/-! ### Association-list (`BTreeMap`) lemmas -/

theorem mem_keys_iff_fpGet {fp : Fp} {p : Path} :
    p ∈ fp.map Prod.fst ↔ (fpGet fp p).isSome := by
  induction fp with
  | nil => simp [fpGet]
  | cons qw rest ih =>
    obtain ⟨q, w⟩ := qw
    by_cases h : p = q
    · subst h; simp [fpGet]
    · simp [fpGet, h, ih]

theorem fpGet_eq_none_iff {fp : Fp} {p : Path} :
    fpGet fp p = none ↔ p ∉ fp.map Prod.fst := by
  rw [mem_keys_iff_fpGet]
  cases fpGet fp p <;> simp

theorem fpGet_mem {fp : Fp} {p : Path} {v : DiffVal}
    (h : fpGet fp p = some v) : (p, v) ∈ fp := by
  induction fp with
  | nil => simp [fpGet] at h
  | cons qw rest ih =>
    obtain ⟨q, w⟩ := qw
    by_cases hpq : p = q
    · subst hpq
      simp [fpGet] at h
      subst h
      exact List.mem_cons_self _ _
    · simp only [fpGet, if_neg hpq] at h
      exact List.mem_cons_of_mem _ (ih h)

theorem mem_fpGet {fp : Fp} (hs : SortedKeys fp) {p : Path} {v : DiffVal}
    (h : (p, v) ∈ fp) : fpGet fp p = some v := by
  induction fp with
  | nil => simp at h
  | cons qw rest ih =>
    obtain ⟨q, w⟩ := qw
    obtain ⟨hhead, htail⟩ := List.pairwise_cons.mp hs
    rcases List.mem_cons.mp h with h | h
    · obtain ⟨h1, h2⟩ := Prod.mk.injEq .. ▸ h
      subst h1; subst h2
      simp [fpGet]
    · have hlt : pathLt q p = true := hhead _ h
      have hne : p ≠ q := fun he => pathLt_ne hlt he.symm
      simp only [fpGet, if_neg hne]
      exact ih htail h

theorem sortedKeys_keys_nodup {fp : Fp} (hs : SortedKeys fp) :
    (fp.map Prod.fst).Nodup := by
  have hp : List.Pairwise (fun p q : Path => pathLt p q = true) (fp.map Prod.fst) :=
    hs.map Prod.fst (fun _ _ h => h)
  exact hp.imp (fun h => pathLt_ne h)

theorem sortedKeys_head_fpGet_none {p : Path} {v : DiffVal} {fp : Fp}
    (hs : SortedKeys ((p, v) :: fp)) : fpGet fp p = none := by
  obtain ⟨hhead, _⟩ := List.pairwise_cons.mp hs
  cases hg : fpGet fp p with
  | none => rfl
  | some w =>
    have hm := fpGet_mem hg
    have hlt := hhead _ hm
    rw [pathLt_irrefl] at hlt
    exact absurd hlt Bool.false_ne_true

theorem fpExt {A : Fp} : ∀ {B : Fp}, SortedKeys A → SortedKeys B →
    (∀ p, fpGet A p = fpGet B p) → A = B := by
  induction A with
  | nil =>
    intro B _ _ h
    cases B with
    | nil => rfl
    | cons qw rest =>
      obtain ⟨q, w⟩ := qw
      have hq := h q
      simp [fpGet] at hq
  | cons pv A' ih =>
    obtain ⟨p, v⟩ := pv
    intro B hA hB h
    cases B with
    | nil =>
      have hp := h p
      simp [fpGet] at hp
    | cons qw B' =>
      obtain ⟨q, w⟩ := qw
      have hpq : p = q := by
        by_contra hne
        have h1 : fpGet ((p, v) :: A') p = some v := by simp [fpGet]
        have h2 : fpGet ((q, w) :: B') q = some w := by simp [fpGet]
        have h3 : fpGet B' p = some v := by
          have := (h p).symm.trans h1
          rwa [fpGet, if_neg hne] at this
        have h4 : fpGet A' q = some w := by
          have := (h q).trans h2
          rwa [fpGet, if_neg (Ne.symm hne)] at this
        have hlt1 : pathLt q p = true :=
          (List.pairwise_cons.mp hB).1 _ (fpGet_mem h3)
        have hlt2 : pathLt p q = true :=
          (List.pairwise_cons.mp hA).1 _ (fpGet_mem h4)
        have := pathLt_asymm hlt2
        rw [this] at hlt1
        exact absurd hlt1 Bool.false_ne_true
      subst hpq
      have hvw : v = w := by
        have hp := h p
        simp [fpGet] at hp
        exact hp
      subst hvw
      have htail : ∀ r, fpGet A' r = fpGet B' r := by
        intro r
        by_cases hrp : r = p
        · subst hrp
          rw [sortedKeys_head_fpGet_none hA, sortedKeys_head_fpGet_none hB]
        · have hr := h r
          rwa [fpGet, if_neg hrp, fpGet, if_neg hrp] at hr
      rw [ih (List.pairwise_cons.mp hA).2 (List.pairwise_cons.mp hB).2 htail]

theorem mem_fpInsert {fp : Fp} {p : Path} {v : DiffVal} {x : Path × DiffVal} :
    x ∈ fpInsert fp p v → x = (p, v) ∨ x ∈ fp := by
  induction fp with
  | nil => intro h; simp [fpInsert] at h; exact Or.inl h
  | cons qw rest ih =>
    obtain ⟨q, w⟩ := qw
    intro h
    unfold fpInsert at h
    split at h
    · rcases List.mem_cons.mp h with h | h
      · exact Or.inl h
      · exact Or.inr h
    · split at h
      · rcases List.mem_cons.mp h with h | h
        · exact Or.inl h
        · exact Or.inr (List.mem_cons_of_mem _ h)
      · rcases List.mem_cons.mp h with h | h
        · exact Or.inr (List.mem_cons.mpr (Or.inl h))
        · rcases ih h with h | h
          · exact Or.inl h
          · exact Or.inr (List.mem_cons_of_mem _ h)

theorem fpInsert_sortedKeys {fp : Fp} (hs : SortedKeys fp) (p : Path) (v : DiffVal) :
    SortedKeys (fpInsert fp p v) := by
  induction fp with
  | nil => simp [fpInsert, SortedKeys]
  | cons qw rest ih =>
    obtain ⟨q, w⟩ := qw
    obtain ⟨hhead, htail⟩ := List.pairwise_cons.mp hs
    unfold fpInsert
    split
    · rename_i hlt
      refine List.pairwise_cons.mpr ⟨?_, hs⟩
      intro b hb
      rcases List.mem_cons.mp hb with hb | hb
      · subst hb; exact hlt
      · exact pathLt_trans hlt (hhead _ hb)
    · split
      · rename_i hlt heq
        subst heq
        exact List.pairwise_cons.mpr ⟨hhead, htail⟩
      · rename_i hlt hne
        have hqp : pathLt q p = true := by
          cases hqp : pathLt q p with
          | true => rfl
          | false =>
            exact absurd (pathLt_conn (Bool.of_not_eq_true hlt) hqp) hne
        refine List.pairwise_cons.mpr ⟨?_, ih htail⟩
        intro b hb
        rcases mem_fpInsert hb with hb | hb
        · subst hb; exact hqp
        · exact hhead _ hb

theorem commit_diff_fingerprint_go_sortedKeys :
    ∀ (s : List (Path × Except Err DiffVal)) (fp : Fp), SortedKeys fp →
      ∀ {out : Fp}, commit_diff_fingerprint_go s fp = .ok out → SortedKeys out
  | [], fp, hs, out, h => by
    simp only [commit_diff_fingerprint_go, Except.ok.injEq] at h
    exact h ▸ hs
  | (_, .error _) :: _, fp, _, out, h => by
    simp [commit_diff_fingerprint_go] at h
  | (p, .ok v) :: rest, fp, hs, out, h =>
    commit_diff_fingerprint_go_sortedKeys rest _ (fpInsert_sortedKeys hs p v) h

theorem commit_diff_fingerprint_sortedKeys {c : Commit} {out : Fp}
    (h : commit_diff_fingerprint c = .ok out) : SortedKeys out :=
  commit_diff_fingerprint_go_sortedKeys c.diffStream [] (by simp [SortedKeys]) h

/-! ### Lemmas about `diff_fingerprint_changes` -/

theorem mem_diff_fingerprint_changes {A B : Fp} (hB : SortedKeys B) (p : Path) :
    p ∈ diff_fingerprint_changes A B ↔
      ((∃ v, fpGet B p = some v ∧ fpGet A p ≠ some v) ∨
        (p ∈ A.map Prod.fst ∧ fpGet B p = none)) := by
  unfold diff_fingerprint_changes
  rw [List.mem_insertionSort, List.mem_append]
  constructor
  · rintro (h | h)
    · left
      rw [List.mem_map] at h
      obtain ⟨⟨pk, pv⟩, hmem, rfl⟩ := h
      rw [List.mem_filter] at hmem
      obtain ⟨hmem, hcond⟩ := hmem
      exact ⟨pv, mem_fpGet hB hmem, by simpa using hcond⟩
    · right
      rw [List.mem_filter] at h
      obtain ⟨hk, hcond⟩ := h
      refine ⟨hk, ?_⟩
      simp only [Bool.not_eq_true'] at hcond
      exact Option.not_isSome_iff_eq_none.mp (by simp [hcond])
  · rintro (⟨v, hBv, hAv⟩ | ⟨hk, hnone⟩)
    · left
      rw [List.mem_map]
      exact ⟨(p, v), List.mem_filter.mpr ⟨fpGet_mem hBv, by simpa using hAv⟩, rfl⟩
    · right
      rw [List.mem_filter]
      exact ⟨hk, by simp [hnone]⟩

theorem nodup_diff_fingerprint_changes {A B : Fp}
    (hA : SortedKeys A) (hB : SortedKeys B) :
    (diff_fingerprint_changes A B).Nodup := by
  unfold diff_fingerprint_changes
  rw [(List.perm_insertionSort pathLe _).nodup_iff]
  apply List.Nodup.append
  · exact ((List.filter_sublist B).map Prod.fst).nodup (sortedKeys_keys_nodup hB)
  · exact (List.filter_sublist (A.map Prod.fst)).nodup (sortedKeys_keys_nodup hA)
  · intro p hp1 hp2
    rw [List.mem_map] at hp1
    obtain ⟨⟨pk, pv⟩, hm, rfl⟩ := hp1
    rw [List.mem_filter] at hm hp2
    have h1 : fpGet B pk = some pv := mem_fpGet hB hm.1
    have h2 := hp2.2
    simp [h1] at h2

theorem sorted_diff_fingerprint_changes (A B : Fp) :
    List.Sorted pathLe (diff_fingerprint_changes A B) :=
  List.sorted_insertionSort pathLe _

theorem diff_fingerprint_changes_eq_nil {A B : Fp}
    (hA : SortedKeys A) (hB : SortedKeys B)
    (h : diff_fingerprint_changes A B = []) : A = B := by
  unfold diff_fingerprint_changes at h
  have hraw : ((B.filter fun pc => decide (fpGet A pc.1 ≠ some pc.2)).map Prod.fst
      ++ (A.map Prod.fst).filter fun p => !(fpGet B p).isSome) = [] := by
    have hlen := (List.perm_insertionSort pathLe
      ((B.filter fun pc => decide (fpGet A pc.1 ≠ some pc.2)).map Prod.fst
        ++ (A.map Prod.fst).filter fun p => !(fpGet B p).isSome)).length_eq
    rw [h] at hlen
    exact List.eq_nil_of_length_eq_zero hlen.symm
  rw [List.append_eq_nil] at hraw
  obtain ⟨h1, h2⟩ := hraw
  have hB2A : ∀ pc ∈ B, fpGet A pc.1 = some pc.2 := by
    intro pc hpc
    by_contra hne
    have : pc.1 ∈ (B.filter fun pc => decide (fpGet A pc.1 ≠ some pc.2)).map Prod.fst :=
      List.mem_map.mpr ⟨pc, List.mem_filter.mpr ⟨hpc, by simpa using hne⟩, rfl⟩
    rw [h1] at this
    simp at this
  have hA2B : ∀ p ∈ A.map Prod.fst, (fpGet B p).isSome := by
    intro p hp
    by_contra hns
    have : p ∈ (A.map Prod.fst).filter fun p => !(fpGet B p).isSome :=
      List.mem_filter.mpr ⟨hp, by simpa using hns⟩
    rw [h2] at this
    simp at this
  apply fpExt hA hB
  intro p
  cases hc : fpGet B p with
  | some v =>
    exact (hB2A (p, v) (fpGet_mem hc))
  | none =>
    cases hc2 : fpGet A p with
    | none => rfl
    | some w =>
      have hk : p ∈ A.map Prod.fst := mem_keys_iff_fpGet.mpr (by simp [hc2])
      have := hA2B p hk
      rw [hc] at this
      simp at this

theorem diff_fingerprint_changes_ne_nil {A B : Fp}
    (hA : SortedKeys A) (hB : SortedKeys B) (hne : A ≠ B) :
    diff_fingerprint_changes A B ≠ [] :=
  fun h => hne (diff_fingerprint_changes_eq_nil hA hB h)

/-! ### Branch characterizations of `check_staleness` -/

theorem check_staleness_getCommit_error {repo : Repo} {cid : String} {e : Err}
    (h1 : repo.getCommit cid = .error e) : check_staleness repo cid = .error e := by
  unfold check_staleness
  rw [h1]

theorem check_staleness_empty_desc {repo : Repo} {cid : String} {c : Commit} {f : Fp}
    (h1 : repo.getCommit cid = .ok c) (h2 : c.description = "")
    (h3 : commit_diff_fingerprint c = .ok f) :
    check_staleness repo cid =
      .ok (some { change_id_short := c.changeId.take 12,
                  changed_files := f.map Prod.fst }) := by
  unfold check_staleness
  rw [h1]
  simp [h2, h3]

theorem check_staleness_empty_desc_error {repo : Repo} {cid : String} {c : Commit} {e : Err}
    (h1 : repo.getCommit cid = .ok c) (h2 : c.description = "")
    (h3 : commit_diff_fingerprint c = .error e) :
    check_staleness repo cid = .error e := by
  unfold check_staleness
  rw [h1]
  simp [h2, h3]

theorem check_staleness_chain_error {repo : Repo} {cid : String} {c : Commit} {e : Err}
    (h1 : repo.getCommit cid = .ok c) (h2 : ¬ c.description = "")
    (h3 : inspectedChain repo cid = .error e) :
    check_staleness repo cid = .error e := by
  unfold check_staleness
  rw [h1]
  simp [h2, h3]

theorem check_staleness_short_chain {repo : Repo} {cid : String} {c : Commit}
    {entries : List Commit}
    (h1 : repo.getCommit cid = .ok c) (h2 : ¬ c.description = "")
    (h3 : inspectedChain repo cid = .ok entries) (h4 : entries.length < 2) :
    check_staleness repo cid = .ok none := by
  unfold check_staleness
  rw [h1]
  simp [h2, h3, h4]

theorem check_staleness_described_fp_error {repo : Repo} {cid : String} {c : Commit}
    {entries : List Commit} {e : Err}
    (h1 : repo.getCommit cid = .ok c) (h2 : ¬ c.description = "")
    (h3 : inspectedChain repo cid = .ok entries) (h4 : ¬ entries.length < 2)
    (h5 : commit_diff_fingerprint (find_last_described entries) = .error e) :
    check_staleness repo cid = .error e := by
  unfold check_staleness
  rw [h1]
  simp [h2, h3, h4, h5]

theorem check_staleness_current_fp_error {repo : Repo} {cid : String} {c : Commit}
    {entries : List Commit} {fpd : Fp} {e : Err}
    (h1 : repo.getCommit cid = .ok c) (h2 : ¬ c.description = "")
    (h3 : inspectedChain repo cid = .ok entries) (h4 : ¬ entries.length < 2)
    (h5 : commit_diff_fingerprint (find_last_described entries) = .ok fpd)
    (h6 : commit_diff_fingerprint c = .error e) :
    check_staleness repo cid = .error e := by
  unfold check_staleness
  rw [h1]
  simp [h2, h3, h4, h5, h6]

theorem check_staleness_described {repo : Repo} {cid : String} {c : Commit}
    {entries : List Commit} {fpd fpc : Fp}
    (h1 : repo.getCommit cid = .ok c) (h2 : ¬ c.description = "")
    (h3 : inspectedChain repo cid = .ok entries) (h4 : ¬ entries.length < 2)
    (h5 : commit_diff_fingerprint (find_last_described entries) = .ok fpd)
    (h6 : commit_diff_fingerprint c = .ok fpc) :
    check_staleness repo cid =
      if fpd = fpc then .ok none
      else .ok (some { change_id_short := c.changeId.take 12,
                       changed_files := diff_fingerprint_changes fpd fpc }) := by
  unfold check_staleness
  rw [h1]
  simp [h2, h3, h4, h5, h6]

/-- Inversion: with a non-empty description, a `Some` verdict can only come
from the fingerprint-comparison branch. -/
theorem check_staleness_some_inv {repo : Repo} {cid : String} {c : Commit}
    {info : StalenessInfo}
    (h1 : repo.getCommit cid = .ok c) (h2 : ¬ c.description = "")
    (h : check_staleness repo cid = .ok (some info)) :
    ∃ entries fpd fpc,
      inspectedChain repo cid = .ok entries ∧ ¬ entries.length < 2 ∧
      commit_diff_fingerprint (find_last_described entries) = .ok fpd ∧
      commit_diff_fingerprint c = .ok fpc ∧ fpd ≠ fpc ∧
      info = { change_id_short := c.changeId.take 12,
               changed_files := diff_fingerprint_changes fpd fpc } := by
  cases h3 : inspectedChain repo cid with
  | error e =>
    rw [check_staleness_chain_error h1 h2 h3] at h
    exact absurd h (by simp)
  | ok entries =>
    by_cases h4 : entries.length < 2
    · rw [check_staleness_short_chain h1 h2 h3 h4] at h
      exact absurd h (by simp)
    · cases h5 : commit_diff_fingerprint (find_last_described entries) with
      | error e =>
        rw [check_staleness_described_fp_error h1 h2 h3 h4 h5] at h
        exact absurd h (by simp)
      | ok fpd =>
        cases h6 : commit_diff_fingerprint c with
        | error e =>
          rw [check_staleness_current_fp_error h1 h2 h3 h4 h5 h6] at h
          exact absurd h (by simp)
        | ok fpc =>
          rw [check_staleness_described h1 h2 h3 h4 h5 h6] at h
          by_cases h7 : fpd = fpc
          · rw [if_pos h7] at h
            exact absurd h (by simp)
          · rw [if_neg h7] at h
            simp only [Except.ok.injEq, Option.some.injEq] at h
            exact ⟨entries, fpd, fpc, rfl, h4, h5, rfl, h7, h.symm⟩

/-! ### Lemmas about the evolog collection loop -/

theorem collectEntries_length_le :
    ∀ (s : List (Except Err Commit)) (acc : List Commit),
      acc.length < MAX_EVOLOG_ENTRIES →
      ∀ {out : List Commit}, collectEntries s acc = .ok out →
      out.length ≤ MAX_EVOLOG_ENTRIES
  | [], acc, hacc, out, h => by
    simp only [collectEntries, Except.ok.injEq] at h
    exact h ▸ Nat.le_of_lt hacc
  | .error _ :: _, _, _, out, h => by
    simp [collectEntries] at h
  | .ok c :: rest, acc, hacc, out, h => by
    rw [collectEntries] at h
    split at h
    · rename_i hfull
      simp only [Except.ok.injEq] at h
      subst h
      simpa using hacc
    · rename_i hnotfull
      exact collectEntries_length_le rest (acc ++ [c])
        (by simpa using Nat.lt_of_not_le (fun hle => hnotfull (by simpa using hle))) h

theorem collectEntries_all_ok :
    ∀ (l : List Commit) (acc : List Commit), acc.length < MAX_EVOLOG_ENTRIES →
      collectEntries (l.map Except.ok) acc =
        .ok (acc ++ l.take (MAX_EVOLOG_ENTRIES - acc.length))
  | [], acc, _ => by simp [collectEntries]
  | c :: l', acc, hacc => by
    rw [List.map_cons, collectEntries]
    split
    · rename_i hfull
      have hlen : acc.length + 1 = MAX_EVOLOG_ENTRIES := by
        simp only [List.length_append, List.length_singleton] at hfull
        omega
      have : MAX_EVOLOG_ENTRIES - acc.length = 1 := by omega
      rw [this]
      simp
    · rename_i hnotfull
      have hlt : acc.length + 1 < MAX_EVOLOG_ENTRIES := by
        simp only [List.length_append, List.length_singleton] at hnotfull
        omega
      rw [collectEntries_all_ok l' (acc ++ [c]) (by simpa using hlt)]
      have harith : MAX_EVOLOG_ENTRIES - (acc.length + 1) + 1 = MAX_EVOLOG_ENTRIES - acc.length := by
        omega
      simp only [List.length_append, List.length_singleton, List.append_assoc,
        List.singleton_append, Except.ok.injEq, List.append_cancel_left_eq]
      rw [← harith, List.take_succ_cons]

theorem inspectedChain_length_le {repo : Repo} {cid : String} {ch : List Commit}
    (h : inspectedChain repo cid = .ok ch) : ch.length ≤ MAX_EVOLOG_ENTRIES := by
  unfold inspectedChain at h
  cases hc : collectEntries (repo.predecessors cid) [] with
  | error e => rw [hc] at h; simp [Except.map] at h
  | ok out =>
    rw [hc] at h
    simp only [Except.map, Except.ok.injEq] at h
    subst h
    rw [List.length_reverse]
    exact collectEntries_length_le _ [] (by simp [MAX_EVOLOG_ENTRIES]) hc

theorem inspectedChain_all_ok {repo : Repo} {cid : String} {l : List Commit}
    (h : repo.predecessors cid = l.map Except.ok) :
    inspectedChain repo cid = .ok ((l.take MAX_EVOLOG_ENTRIES).reverse) := by
  unfold inspectedChain
  rw [h, collectEntries_all_ok l [] (by simp [MAX_EVOLOG_ENTRIES])]
  simp [Except.map]

/-! ### Lemmas about `find_last_described` -/

theorem findLastDescribedGo_eq_none (entries : List Commit) :
    ∀ i, (∀ k, k + 1 ≤ i →
        (entries.getD (k + 1) dfltCommit).description
          = (entries.getD k dfltCommit).description) →
      findLastDescribedGo entries i = none
  | 0, _ => rfl
  | i + 1, h => by
    unfold findLastDescribedGo
    rw [if_neg (fun hne => hne (h i (Nat.le_refl _)))]
    exact findLastDescribedGo_eq_none entries i (fun k hk => h k (Nat.le_succ_of_le hk))

theorem findLastDescribedGo_eq_some (entries : List Commit) :
    ∀ i j, j + 1 ≤ i →
      (entries.getD (j + 1) dfltCommit).description
        ≠ (entries.getD j dfltCommit).description →
      (∀ k, j < k → k + 1 ≤ i →
        (entries.getD (k + 1) dfltCommit).description
          = (entries.getD k dfltCommit).description) →
      findLastDescribedGo entries i = some (entries.getD (j + 1) dfltCommit)
  | 0, _, hj, _, _ => absurd hj (by omega)
  | i + 1, j, hj, hne, hk => by
    unfold findLastDescribedGo
    by_cases hcase : j = i
    · subst hcase
      rw [if_pos hne]
    · have heq := hk i (by omega) (Nat.le_refl _)
      rw [if_neg (fun h => h heq)]
      exact findLastDescribedGo_eq_some entries i j (by omega) hne
        (fun k h1 h2 => hk k h1 (by omega))

theorem headD_eq_getD_zero (entries : List Commit) :
    entries.headD dfltCommit = entries.getD 0 dfltCommit := by
  cases entries <;> rfl

/-! ### Concrete example backends, used to instantiate the theorems -/

/-- A simple "file added" diff value. -/
def exDiff : DiffVal := { before := none, after := some "x" }

/-- A second, distinct diff value. -/
def exDiff2 : DiffVal := { before := none, after := some "y" }

/-- A commit with content but an empty description. -/
def exCommitNoDesc : Commit :=
  { changeId := "zzchg", description := "", parents := ["p0"], treeId := "t1",
    diffStream := [("f.txt", .ok exDiff)] }

/-- Backend exposing `exCommitNoDesc` under commit id `"aa"`, with a
single-entry evolution chain. -/
def exRepo : Repo :=
  { getCommit := fun cid => if cid = "aa" then .ok exCommitNoDesc else .error .notFound,
    predecessors := fun _ => [.ok exCommitNoDesc] }

/-- A commit with empty description and an empty diff (an empty change). -/
def exCommitEmptyBoth : Commit :=
  { changeId := "emptychg", description := "", parents := ["p0"], treeId := "t0",
    diffStream := [] }

/-- Backend exposing `exCommitEmptyBoth` under commit id `"bb"`. -/
def exRepoEmpty : Repo :=
  { getCommit := fun cid => if cid = "bb" then .ok exCommitEmptyBoth else .error .notFound,
    predecessors := fun _ => [.ok exCommitEmptyBoth] }

/-- A freshly created, already-described commit (one-entry chain). -/
def exCommitFresh : Commit :=
  { changeId := "d1chg", description := "feat", parents := ["p0"], treeId := "t1",
    diffStream := [("f.txt", .ok exDiff)] }

/-- Backend exposing `exCommitFresh` under commit id `"cc"`. -/
def exRepoFresh : Repo :=
  { getCommit := fun cid => if cid = "cc" then .ok exCommitFresh else .error .notFound,
    predecessors := fun _ => [.ok exCommitFresh] }

/-- Pre-rebase snapshot: described, on parent `"pa"`. -/
def exCommitOld : Commit :=
  { changeId := "rchg", description := "feat", parents := ["pa"], treeId := "ta",
    diffStream := [("f.txt", .ok exDiff)] }

/-- Post-rebase snapshot: same description and same logical diff, but a
different parent and tree. -/
def exCommitNew : Commit :=
  { changeId := "rchg", description := "feat", parents := ["pb"], treeId := "tb",
    diffStream := [("f.txt", .ok exDiff)] }

/-- Backend for the rebase scenario: current commit `"dd"` is
`exCommitNew`; the walk yields the rebased snapshot then its predecessor. -/
def exRepoRebase : Repo :=
  { getCommit := fun cid => if cid = "dd" then .ok exCommitNew else .error .notFound,
    predecessors := fun _ => [.ok exCommitNew, .ok exCommitOld] }

/-- Pre-squash snapshot: described, touching only `f.txt`. -/
def exSquashOld : Commit :=
  { changeId := "schg", description := "feat", parents := ["p0"], treeId := "ta",
    diffStream := [("f.txt", .ok exDiff)] }

/-- Post-squash snapshot: same description, but the diff now also touches
`g.txt`. -/
def exSquashNew : Commit :=
  { changeId := "schg", description := "feat", parents := ["p0"], treeId := "tb",
    diffStream := [("f.txt", .ok exDiff), ("g.txt", .ok exDiff2)] }

/-- Backend for the squash scenario under commit id `"ee"`. -/
def exRepoSquash : Repo :=
  { getCommit := fun cid => if cid = "ee" then .ok exSquashNew else .error .notFound,
    predecessors := fun _ => [.ok exSquashNew, .ok exSquashOld] }

/-- The fingerprint of `exSquashOld`. -/
def fpF1 : Fp := [("f.txt", exDiff)]

/-- The fingerprint of `exSquashNew`. -/
def fpF2 : Fp := [("f.txt", exDiff), ("g.txt", exDiff2)]

/-- A commit whose diff stream fails with a backend read error. -/
def exCommitBadStream : Commit :=
  { changeId := "badchg", description := "feat", parents := ["p0"], treeId := "t1",
    diffStream := [("f.txt", .error .backendRead)] }

/-! ### Claim C1 -/

/-- C1 counterexample: the claim says a failure on one candidate leaves the
remaining candidates' verdicts intact.  With candidates `["zz", "aa"]`, the
malformed id `"zz"` makes the whole batch return an error — no verdicts are
produced — although candidate `"aa"` alone yields a verdict. -/
theorem run_check_loop_abort_counterexample :
    run_check_loop exRepo ["zz", "aa"] = .error .malformed ∧
    run_check_loop exRepo ["aa"] =
      .ok [{ change_id_short := "zzchg", changed_files := ["f.txt"] }] := by
  decide

/-- C1 (amended): a failure (malformed candidate id, or any `check_staleness`
error such as `NotFound` or a backend read error) while evaluating one
candidate is fatal to the whole batch: `run`'s candidate loop propagates the
error and produces no verdicts for the remaining candidates. -/
theorem run_check_loop_error_propagates (repo : Repo) (candidates : List String)
    (hex : String) (e : Err) (hmem : hex ∈ candidates)
    (hfail : (parseCommitId hex).bind (check_staleness repo) = .error e) :
    ∃ e', run_check_loop repo candidates = .error e' := by
  induction candidates with
  | nil => exact absurd hmem (List.not_mem_nil _)
  | cons a rest ih =>
    cases hpa : parseCommitId a with
    | error e' =>
      exact ⟨e', by simp only [run_check_loop, hpa]⟩
    | ok cid =>
      cases hca : check_staleness repo cid with
      | error e' =>
        exact ⟨e', by simp only [run_check_loop, hpa, hca]⟩
      | ok info? =>
        have hmem' : hex ∈ rest := by
          rcases List.mem_cons.mp hmem with rfl | hm
          · rw [hpa] at hfail
            simp only [Except.bind] at hfail
            rw [hca] at hfail
            exact absurd hfail (by simp)
          · exact hm
        obtain ⟨e', he'⟩ := ih hmem'
        exact ⟨e', by simp only [run_check_loop, hpa, hca, he']⟩

/-- C1 witness: the amended theorem applied at the concrete batch. -/
theorem run_check_loop_error_propagates_witness :
    ("zz" ∈ ["zz", "aa"]) ∧ ∃ e', run_check_loop exRepo ["zz", "aa"] = .error e' :=
  ⟨by decide,
   run_check_loop_error_propagates exRepo ["zz", "aa"] "zz" .malformed
     (by decide) (by decide)⟩

/-! ### Claim C2 -/

/-- C2: the claim (and the function's own documentation, which calls a change
stale only when it has a *non-empty* diff but an empty description) requires
`None` for an empty-description change with an empty fingerprint; the code
instead returns `Some` with an empty changed-path list. -/
theorem empty_desc_empty_fingerprint_reports_stale :
    check_staleness exRepoEmpty "bb" =
      .ok (some { change_id_short := "emptychg", changed_files := [] }) := by
  decide

/-! ### Claim C3 -/

/-- C3 counterexample: a change with an *empty* description, a one-entry
evolution chain and a non-empty fingerprint is reported stale — the code
returns `Some` before ever looking at the chain, so "chain shorter than two
entries implies `None` regardless of the description" is false. -/
theorem short_chain_empty_desc_counterexample :
    inspectedChain exRepo "aa" = .ok [exCommitNoDesc] ∧
    check_staleness exRepo "aa" ≠ .ok none := by
  decide

/-- C3 (amended): for every change with a *non-empty* description whose
evolution chain (successfully collected) has fewer than two entries, `check`
returns `None`, regardless of the change's fingerprint. -/
theorem short_chain_described_fresh (repo : Repo) (cid : String) (c : Commit)
    (entries : List Commit)
    (h1 : repo.getCommit cid = .ok c) (h2 : c.description ≠ "")
    (h3 : inspectedChain repo cid = .ok entries) (h4 : entries.length < 2) :
    check_staleness repo cid = .ok none :=
  check_staleness_short_chain h1 h2 h3 h4

/-- C3 witness: the amended theorem applied to a freshly created described
change. -/
theorem short_chain_described_fresh_witness :
    exCommitFresh.description ≠ "" ∧ check_staleness exRepoFresh "cc" = .ok none :=
  ⟨by decide,
   short_chain_described_fresh exRepoFresh "cc" exCommitFresh [exCommitFresh]
     (by decide) (by decide) (by decide) (by decide)⟩

/-! ### Claim C4 -/

/-- C4: rebase invariance.  If the fingerprint at the last-described snapshot
equals the current fingerprint — in particular after a rebase that changed
only the parent snapshot — `check` returns `None`; and fingerprint equality
depends only on the per-path diff stream, never on change ids, descriptions,
parent ids or tree ids. -/
theorem rebase_invariance (repo : Repo) (cid : String) (c : Commit)
    (entries : List Commit) (fp : Fp)
    (h1 : repo.getCommit cid = .ok c) (h2 : c.description ≠ "")
    (h3 : inspectedChain repo cid = .ok entries) (h4 : ¬ entries.length < 2)
    (h5 : commit_diff_fingerprint (find_last_described entries) = .ok fp)
    (h6 : commit_diff_fingerprint c = .ok fp) :
    check_staleness repo cid = .ok none ∧
    ∀ a b : Commit, a.diffStream = b.diffStream →
      commit_diff_fingerprint a = commit_diff_fingerprint b := by
  constructor
  · rw [check_staleness_described h1 h2 h3 h4 h5 h6, if_pos rfl]
  · intro a b h
    unfold commit_diff_fingerprint
    rw [h]

/-- C4 witness: the rebased commit `exCommitNew` sits on a different parent
and tree than `exCommitOld` but introduces the same logical edit, and is not
reported stale. -/
theorem rebase_invariance_witness :
    exCommitOld.parents ≠ exCommitNew.parents ∧
    check_staleness exRepoRebase "dd" = .ok none :=
  ⟨by decide,
   (rebase_invariance exRepoRebase "dd" exCommitNew [exCommitOld, exCommitNew]
     [("f.txt", exDiff)]
     (by decide) (by decide) (by decide) (by decide) (by decide) (by decide)).1⟩

/-! ### Claim C5 -/

/-- C5: on a chronological chain of at least two entries,
`find_last_described` returns the entry at the newer index of the first
adjacent pair — scanning from newest toward oldest — whose descriptions
differ, and the oldest entry when the description is constant across the
chain. -/
theorem find_last_described_spec (entries : List Commit)
    (hlen : 2 ≤ entries.length) :
    (∀ j, j + 1 < entries.length →
      (entries.getD (j + 1) dfltCommit).description
        ≠ (entries.getD j dfltCommit).description →
      (∀ k, j < k → k + 1 < entries.length →
        (entries.getD (k + 1) dfltCommit).description
          = (entries.getD k dfltCommit).description) →
      find_last_described entries = entries.getD (j + 1) dfltCommit) ∧
    ((∀ k, k + 1 < entries.length →
      (entries.getD (k + 1) dfltCommit).description
        = (entries.getD k dfltCommit).description) →
      find_last_described entries = entries.getD 0 dfltCommit) := by
  constructor
  · intro j hj hne hk
    unfold find_last_described
    rw [findLastDescribedGo_eq_some entries (entries.length - 1) j (by omega) hne
      (fun k h1 h2 => hk k h1 (by omega))]
    rfl
  · intro hk
    unfold find_last_described
    rw [findLastDescribedGo_eq_none entries (entries.length - 1)
      (fun k h => hk k (by omega))]
    exact headD_eq_getD_zero entries

/-- C5 witness: on the squash chain (constant description) the oldest entry is
selected. -/
theorem find_last_described_spec_witness :
    2 ≤ ([exSquashOld, exSquashNew] : List Commit).length ∧
    find_last_described [exSquashOld, exSquashNew] = exSquashOld :=
  ⟨by decide,
   (find_last_described_spec [exSquashOld, exSquashNew] (by decide)).2
     (by intro k h1
         have hk : k = 0 := by simp at h1; omega
         subst hk
         decide)⟩

/-! ### Claim C6 -/

/-- C6: for a described change with a chain of at least two entries, equal
fingerprints at the last-described and current snapshots yield `None`;
unequal fingerprints yield `Some` whose changed-path list holds exactly the
paths of the current fingerprint whose value differs from or is absent in the
described fingerprint, together with the paths of the described fingerprint
absent from the current one, without duplicates and sorted
lexicographically. -/
theorem described_staleness_decision_spec (repo : Repo) (cid : String)
    (c : Commit) (entries : List Commit) (fpd fpc : Fp)
    (h1 : repo.getCommit cid = .ok c) (h2 : c.description ≠ "")
    (h3 : inspectedChain repo cid = .ok entries) (h4 : ¬ entries.length < 2)
    (h5 : commit_diff_fingerprint (find_last_described entries) = .ok fpd)
    (h6 : commit_diff_fingerprint c = .ok fpc) :
    (fpd = fpc → check_staleness repo cid = .ok none) ∧
    (fpd ≠ fpc → ∃ info, check_staleness repo cid = .ok (some info) ∧
      (∀ p, p ∈ info.changed_files ↔
        ((∃ v, fpGet fpc p = some v ∧ fpGet fpd p ≠ some v) ∨
          (p ∈ fpd.map Prod.fst ∧ fpGet fpc p = none))) ∧
      info.changed_files.Nodup ∧
      List.Sorted pathLe info.changed_files) := by
  have hd := check_staleness_described h1 h2 h3 h4 h5 h6
  constructor
  · intro he
    rw [hd, if_pos he]
  · intro hne
    refine ⟨_, by rw [hd, if_neg hne], ?_, ?_, ?_⟩
    · intro p
      exact mem_diff_fingerprint_changes (commit_diff_fingerprint_sortedKeys h6) p
    · exact nodup_diff_fingerprint_changes (commit_diff_fingerprint_sortedKeys h5)
        (commit_diff_fingerprint_sortedKeys h6)
    · exact sorted_diff_fingerprint_changes _ _

/-- C6 witness: the squash scenario, where the described fingerprint covers
`f.txt` only and the current fingerprint also covers `g.txt`. -/
theorem described_staleness_decision_spec_witness :
    fpF1 ≠ fpF2 ∧
    ∃ info, check_staleness exRepoSquash "ee" = .ok (some info) ∧
      (∀ p, p ∈ info.changed_files ↔
        ((∃ v, fpGet fpF2 p = some v ∧ fpGet fpF1 p ≠ some v) ∨
          (p ∈ fpF1.map Prod.fst ∧ fpGet fpF2 p = none))) ∧
      info.changed_files.Nodup ∧
      List.Sorted pathLe info.changed_files :=
  ⟨by decide,
   (described_staleness_decision_spec exRepoSquash "ee" exSquashNew
     [exSquashOld, exSquashNew] fpF1 fpF2
     (by decide) (by decide) (by decide) (by decide) (by decide) (by decide)).2
     (by decide)⟩

/-! ### Claim C7 -/

theorem commit_diff_fingerprint_go_error :
    ∀ (s : List (Path × Except Err DiffVal)) (fp : Fp) {p : Path} {e : Err},
      (p, Except.error e) ∈ s →
      ∃ e', commit_diff_fingerprint_go s fp = .error e'
  | [], _, p, e, h => absurd h (List.not_mem_nil _)
  | (q, .error e') :: _, fp, p, e, _ => ⟨e', rfl⟩
  | (q, .ok v) :: rest, fp, p, e, h => by
    rcases List.mem_cons.mp h with h | h
    · exact absurd h (by simp)
    · exact commit_diff_fingerprint_go_error rest _ h

/-- C7: a backend read error anywhere in a snapshot's tree-diff stream makes
fingerprint computation fail with an error — it is never absorbed into an
empty or partial `.ok` fingerprint. -/
theorem fingerprint_stream_error_fatal (c : Commit)
    (h : ∃ p e, (p, Except.error e) ∈ c.diffStream) :
    ∃ e', commit_diff_fingerprint c = .error e' := by
  obtain ⟨p, e, hmem⟩ := h
  exact commit_diff_fingerprint_go_error c.diffStream [] hmem

/-- C7 witness: a stream failing on `f.txt`. -/
theorem fingerprint_stream_error_fatal_witness :
    (∃ p e, (p, Except.error e) ∈ exCommitBadStream.diffStream) ∧
    ∃ e', commit_diff_fingerprint exCommitBadStream = .error e' :=
  ⟨⟨"f.txt", .backendRead, by decide⟩,
   fingerprint_stream_error_fatal exCommitBadStream ⟨"f.txt", .backendRead, by decide⟩⟩

/-! ### Claim C8 -/

/-- C8: the evolution chain `check` inspects never exceeds
`MAX_EVOLOG_ENTRIES` (200) entries, and on an error-free predecessor walk it
is exactly the first 200 (or all, if fewer) walked entries reversed into
chronological oldest-first order. -/
theorem inspected_chain_bounded_reversed (repo : Repo) (cid : String) :
    (∀ ch, inspectedChain repo cid = .ok ch → ch.length ≤ MAX_EVOLOG_ENTRIES) ∧
    (∀ l : List Commit, repo.predecessors cid = l.map Except.ok →
      inspectedChain repo cid = .ok ((l.take MAX_EVOLOG_ENTRIES).reverse)) :=
  ⟨fun _ h => inspectedChain_length_le h, fun _ h => inspectedChain_all_ok h⟩

/-- C8 witness: the rebase backend's two-entry walk, reversed. -/
theorem inspected_chain_bounded_reversed_witness :
    inspectedChain exRepoRebase "dd" =
      .ok (([exCommitNew, exCommitOld].take MAX_EVOLOG_ENTRIES).reverse) ∧
    ([exCommitOld, exCommitNew] : List Commit).length ≤ MAX_EVOLOG_ENTRIES :=
  ⟨(inspected_chain_bounded_reversed exRepoRebase "dd").2 [exCommitNew, exCommitOld]
     (by decide),
   (inspected_chain_bounded_reversed exRepoRebase "dd").1 [exCommitOld, exCommitNew]
     (by decide)⟩

/-! ### Claim C9 -/

/-- C9: for a change with a non-empty description, a `Some` verdict always
carries a non-empty changed-path list: the two fingerprints compared are
unequal, which forces at least one collected path. -/
theorem described_verdict_nonempty_paths (repo : Repo) (cid : String)
    (c : Commit) (info : StalenessInfo)
    (h1 : repo.getCommit cid = .ok c) (h2 : c.description ≠ "")
    (h3 : check_staleness repo cid = .ok (some info)) :
    info.changed_files ≠ [] := by
  obtain ⟨entries, fpd, fpc, _, _, h5, h6, hne, hinfo⟩ :=
    check_staleness_some_inv h1 h2 h3
  rw [hinfo]
  exact diff_fingerprint_changes_ne_nil (commit_diff_fingerprint_sortedKeys h5)
    (commit_diff_fingerprint_sortedKeys h6) hne

/-- C9 witness: the squash scenario's verdict. -/
theorem described_verdict_nonempty_paths_witness :
    exSquashNew.description ≠ "" ∧
    ({ change_id_short := "schg", changed_files := ["g.txt"] }
      : StalenessInfo).changed_files ≠ [] :=
  ⟨by decide,
   described_verdict_nonempty_paths exRepoSquash "ee" exSquashNew
     { change_id_short := "schg", changed_files := ["g.txt"] }
     (by decide) (by decide) (by decide)⟩

/-! ### Claim C10 -/

/-- C10: the changed-path computation is symmetric — swapping the described
and current fingerprints yields the same changed-path list. -/
theorem diff_fingerprint_changes_symm (A B : Fp)
    (hA : SortedKeys A) (hB : SortedKeys B) :
    diff_fingerprint_changes A B = diff_fingerprint_changes B A := by
  apply List.eq_of_perm_of_sorted ?_ (sorted_diff_fingerprint_changes A B)
    (sorted_diff_fingerprint_changes B A)
  rw [List.perm_ext_iff_of_nodup (nodup_diff_fingerprint_changes hA hB)
    (nodup_diff_fingerprint_changes hB hA)]
  intro p
  rw [mem_diff_fingerprint_changes hB p, mem_diff_fingerprint_changes hA p,
    mem_keys_iff_fpGet, mem_keys_iff_fpGet]
  rcases hA' : fpGet A p with _ | a <;> rcases hB' : fpGet B p with _ | b <;> simp
  exact ne_comm

/-- C10 witness: symmetry at the squash fingerprints. -/
theorem diff_fingerprint_changes_symm_witness :
    SortedKeys fpF1 ∧ SortedKeys fpF2 ∧
    diff_fingerprint_changes fpF1 fpF2 = diff_fingerprint_changes fpF2 fpF1 :=
  ⟨by decide, by decide,
   diff_fingerprint_changes_symm fpF1 fpF2 (by decide) (by decide)⟩

end ActiveDescriptions
